import Mathlib

/-!
Verification of the fantasy-contest core of the JPL fan-engagement app:
the budget-constrained roster builder, the contest-join writes, and the
live-leaderboard ranking.  Each definition is a shallow embedding of the
corresponding expression in the source component (the roster state and
its handlers in the fantasy view, the join routine, and the score sort).
-/

namespace JPL

/-- The roster capacity constant of the fantasy view (source: maxPlayers). -/
def maxPlayers : Nat := 11

/-- The credit budget cap constant of the fantasy view (source: budgetCap). -/
def budgetCap : Nat := 100

/-- A player as the roster logic sees it: the identifier and the role string.
The remaining fields of a player document (name, photo, statistics) are
never read by the roster or budget computations. -/
structure Player where
  id : String
  role : String
deriving DecidableEq, Repr

/-- The per-role credit cost, embedded from the ternary chain the source
repeats in budgetUsed, canAdd and the player card:
role equal to Batsman gives 7, role equal to Bowler gives 8, and every
other role (All-rounder included) gives 9.  The expression is total. -/
def creditCost (role : String) : Nat :=
  if role == "Batsman" then 7 else if role == "Bowler" then 8 else 9

/-- Modelled from the spec (for comparison with creditCost): a lookup that
succeeds only on the closed role set Batsman, Bowler, All-rounder and
fails on every other role. -/
def creditCostSpec (role : String) : Option Nat :=
  if role == "Batsman" then some 7
  else if role == "Bowler" then some 8
  else if role == "All-rounder" then some 9
  else none

/-- The budget used by a roster, embedded from the reduce over the team:
team.reduce of sum plus the per-role cost, starting from 0. -/
def budgetUsed (team : List Player) : Nat :=
  team.foldl (fun sum p => sum + creditCost p.role) 0

/-- Whether a candidate may be added, embedded from the source canAdd:
team.length below maxPlayers, no member of the team has the candidate
identifier, and the budget used plus the candidate cost stays within
the cap. -/
def canAdd (team : List Player) (p : Player) : Bool :=
  decide (team.length < maxPlayers) &&
    (team.find? (fun x => x.id == p.id)).isNone &&
    decide (budgetUsed team + creditCost p.role ≤ budgetCap)

/-- The click handler of a player card, embedded from the source: when the
candidate identifier is found in the team, filter it out; otherwise append
the candidate when canAdd holds, and leave the team unchanged when not. -/
def toggle (team : List Player) (p : Player) : List Player :=
  if (team.find? (fun x => x.id == p.id)).isSome then
    team.filter (fun x => x.id != p.id)
  else if canAdd team p then team ++ [p] else team

/-- Roster states reachable from the empty roster by toggle clicks. -/
inductive Reachable : List Player → Prop
  | nil : Reachable []
  | step (t : List Player) (p : Player) : Reachable t → Reachable (toggle t p)

/-- The players the builder offers for selection, embedded from the source
rendering players.slice of 0 and 20. -/
def offeredPlayers (players : List Player) : List Player := players.take 20

/-- Roster states reachable in the rendered view: every click targets one
of the offered players, since only those have a button. -/
inductive ReachableUI (players : List Player) : List Player → Prop
  | nil : ReachableUI players []
  | step (t : List Player) (p : Player) :
      ReachableUI players t → p ∈ offeredPlayers players →
      ReachableUI players (toggle t p)

/-- A contest document as the join routine reads it. -/
structure Contest where
  id : String
  matchId : String
  status : String
  isPublic : Bool
deriving DecidableEq, Repr

/-- The three document writes of the join routine, with the payload fields
each setDoc stores (timestamps aside). -/
inductive FWrite where
  | profileMarker : FWrite
  | teamRecord (name : String) (playerIds : List String)
      (budget maxP cap : Nat) : FWrite
  | contestEntry (contestId matchId teamId : String) : FWrite
deriving DecidableEq, Repr

/-- What the join routine reports back to the view. -/
inductive JoinOutcome where
  | noOp : JoinOutcome
  | sizeAlert : JoinOutcome
  | joined : JoinOutcome
  | failedAlert : JoinOutcome
deriving DecidableEq, Repr

/-- The component state the join routine can touch. -/
structure FState where
  team : List Player
  joining : Bool
  joined : Bool
deriving Repr

/-- The three writes a fully successful join issues, in order, embedded
from the source: the fantasy-profile marker, the team record under
team_current with the ordered identifier list and budget metadata, and
the contest entry linking contest, match and team. -/
def joinWrites (team : List Player) (c : Contest) : List FWrite :=
  [ FWrite.profileMarker,
    FWrite.teamRecord "My XI" (team.map Player.id) (budgetUsed team)
      maxPlayers budgetCap,
    FWrite.contestEntry c.id c.matchId "team_current" ]

/-- Sequential awaited writes against fallible storage: the oracle says
whether the write at each index succeeds; the first failure raises, so
exactly the writes before it persist. -/
def persistFrom (ok : Nat → Bool) : Nat → List FWrite → List FWrite
  | _, [] => []
  | i, w :: ws => if ok i then w :: persistFrom ok (i + 1) ws else []

/-- The join routine, embedded from the source joinContest: return at once
when refs, user or contest are missing; alert and return when the team
size differs from maxPlayers; otherwise issue the three writes in order,
set the joined flag on full success, and alert on a storage failure.  The
in-progress team is never written to. -/
def joinContest (ok : Nat → Bool) (hasRefs hasUser : Bool)
    (contest : Option Contest) (st : FState) :
    JoinOutcome × List FWrite × FState :=
  match contest with
  | none => (JoinOutcome.noOp, [], st)
  | some c =>
    if !hasRefs || !hasUser then (JoinOutcome.noOp, [], st)
    else if st.team.length != maxPlayers then (JoinOutcome.sizeAlert, [], st)
    else
      let ws := joinWrites st.team c
      let done := persistFrom ok 0 ws
      if done.length == ws.length then
        (JoinOutcome.joined, done, { st with joined := true, joining := false })
      else
        (JoinOutcome.failedAlert, done, { st with joining := false })

/-- A leaderboard entry: a user identifier paired with a possibly absent
points value, as produced by Object.entries over the scores mapping. -/
abbrev ScoreEntry := String × Option Int

/-- The points read from an entry, embedded from the source expression
that falls back to 0 when the value is absent. -/
def pts (e : ScoreEntry) : Int := e.2.getD 0

/-- Insertion of an entry into an already ranked list, placing it before
the first entry whose points do not exceed its own.  Later entries with
equal points therefore stay behind earlier ones. -/
def insertScore (e : ScoreEntry) : List ScoreEntry → List ScoreEntry
  | [] => [e]
  | f :: rest =>
    if pts f ≤ pts e then e :: f :: rest else f :: insertScore e rest

/-- The ranking of the scores entries, a stable sort by points descending:
the embedding of the ECMAScript stable Array sort with the comparator
subtracting the points of the first entry from those of the second. -/
def sortScores : List ScoreEntry → List ScoreEntry
  | [] => []
  | e :: rest => insertScore e (sortScores rest)

/-- The rendered leaderboard, embedded from the source: the full ranking
truncated by slice of 0 and 20. -/
def leaderboardTop (scores : List ScoreEntry) : List ScoreEntry :=
  (sortScores scores).take 20

/-- A demo batsman used by the concrete checks below. -/
def pB : Player := ⟨"p1", "Batsman"⟩

/-- A demo bowler used by the concrete checks below. -/
def pW : Player := ⟨"p2", "Bowler"⟩

/-- A full demo roster of eleven distinct batsmen, total cost 77. -/
def demoTeam : List Player :=
  (List.range 11).map (fun i => ⟨"d" ++ toString i, "Batsman"⟩)

/-- A demo contest in the open state. -/
def cOpen : Contest := ⟨"contest_1", "match_2", "open", true⟩

/-- A demo contest in the closed state. -/
def cClosed : Contest := ⟨"contest_1", "match_2", "closed", true⟩

/-- A storage oracle under which every write succeeds. -/
def okAll : Nat → Bool := fun _ => true

/-- A storage oracle under which only the first write succeeds. -/
def okFirstOnly : Nat → Bool := fun i => i == 0

/-- A component state holding the full demo roster. -/
def stFull : FState := ⟨demoTeam, false, false⟩

/-- A component state holding only ten of the demo players. -/
def stTen : FState := ⟨demoTeam.take 10, false, false⟩

theorem demoTeam_length : demoTeam.length = 11 := by decide

/-- Shifting the accumulator of the budget fold. -/
theorem budget_foldl (t : List Player) (n : Nat) :
    t.foldl (fun sum p => sum + creditCost p.role) n = n + budgetUsed t := by
  induction t generalizing n with
  | nil => simp [budgetUsed]
  | cons q t ih =>
    simp only [budgetUsed, List.foldl_cons] at *
    rw [ih (n + creditCost q.role), ih (0 + creditCost q.role)]
    omega

theorem budgetUsed_nil : budgetUsed [] = 0 := rfl

theorem budgetUsed_cons (p : Player) (t : List Player) :
    budgetUsed (p :: t) = creditCost p.role + budgetUsed t := by
  show (p :: t).foldl (fun sum q => sum + creditCost q.role) 0 = _
  rw [List.foldl_cons, budget_foldl t (0 + creditCost p.role)]
  omega

theorem budgetUsed_append_one (t : List Player) (p : Player) :
    budgetUsed (t ++ [p]) = budgetUsed t + creditCost p.role := by
  simp only [budgetUsed, List.foldl_append, List.foldl_cons, List.foldl_nil]

theorem budgetUsed_perm {t₁ t₂ : List Player} (h : List.Perm t₁ t₂) :
    budgetUsed t₁ = budgetUsed t₂ := by
  induction h with
  | nil => rfl
  | cons x _ ih => rw [budgetUsed_cons, budgetUsed_cons, ih]
  | swap x y l => rw [budgetUsed_cons, budgetUsed_cons,
      budgetUsed_cons, budgetUsed_cons]; omega
  | trans _ _ ih₁ ih₂ => rw [ih₁, ih₂]

theorem budgetUsed_sublist {s t : List Player} (h : List.Sublist s t) :
    budgetUsed s ≤ budgetUsed t := by
  induction h with
  | slnil => exact Nat.le_refl _
  | cons a _ ih => rw [budgetUsed_cons]; omega
  | cons₂ a _ ih => rw [budgetUsed_cons, budgetUsed_cons]; omega

theorem creditCost_pos (role : String) : 0 < creditCost role := by
  unfold creditCost
  split
  · omega
  · split <;> omega

/-- The candidate-identifier check of canAdd, as a statement over members. -/
theorem find_id_none_iff (team : List Player) (p : Player) :
    (team.find? (fun x => x.id == p.id)).isNone = true ↔
      ∀ x ∈ team, x.id ≠ p.id := by
  rw [Option.isNone_iff_eq_none, List.find?_eq_none]
  constructor
  · intro h x hx
    have := h x hx
    simpa using this
  · intro h x hx
    simpa using h x hx

/-- The Boolean canAdd unfolded into its three propositional conjuncts. -/
theorem canAdd_iff_aux (team : List Player) (p : Player) :
    canAdd team p = true ↔
      team.length < maxPlayers ∧ (∀ x ∈ team, x.id ≠ p.id) ∧
        budgetUsed team + creditCost p.role ≤ budgetCap := by
  simp only [canAdd, Bool.and_eq_true, decide_eq_true_eq]
  rw [find_id_none_iff]
  tauto

/-- C1: canAdd returns true exactly when the roster has fewer than eleven
players, the candidate identifier is absent from the roster, and the
roster cost plus the candidate cost stays within the 100-credit cap. -/
theorem canAdd_characterization (team : List Player) (p : Player) :
    canAdd team p = true ↔
      team.length < 11 ∧ (∀ x ∈ team, x.id ≠ p.id) ∧
        budgetUsed team + creditCost p.role ≤ 100 :=
  canAdd_iff_aux team p

/-- Toggling preserves the budget, size and distinctness invariants. -/
theorem toggle_preserves_invariant (t : List Player) (p : Player)
    (hb : budgetUsed t ≤ budgetCap) (hl : t.length ≤ maxPlayers)
    (hn : (t.map Player.id).Nodup) :
    budgetUsed (toggle t p) ≤ budgetCap ∧
      (toggle t p).length ≤ maxPlayers ∧
        ((toggle t p).map Player.id).Nodup := by
  unfold toggle
  by_cases hsel : (t.find? (fun x => x.id == p.id)).isSome = true
  · simp only [hsel, if_true]
    refine ⟨?_, ?_, ?_⟩
    · exact Nat.le_trans (budgetUsed_sublist (List.filter_sublist t)) hb
    · exact Nat.le_trans (List.length_filter_le _ t) hl
    · exact hn.sublist ((List.filter_sublist t).map Player.id)
  · simp only [Bool.not_eq_true] at hsel
    simp only [hsel, Bool.false_eq_true, if_false]
    by_cases hca : canAdd t p = true
    · obtain ⟨hlen, hids, hbud⟩ := (canAdd_iff_aux t p).mp hca
      simp only [hca, if_true]
      refine ⟨?_, ?_, ?_⟩
      · rw [budgetUsed_append_one]; exact hbud
      · rw [List.length_append, List.length_singleton]; omega
      · have hperm : List.Perm (t.map Player.id ++ [p.id])
            (p.id :: t.map Player.id) := List.perm_append_singleton _ _
        rw [List.map_append, List.map_singleton]
        rw [hperm.nodup_iff]
        rw [List.nodup_cons]
        refine ⟨?_, hn⟩
        intro hmem
        obtain ⟨x, hx, hxid⟩ := List.mem_map.mp hmem
        exact hids x hx hxid
    · simp only [hca, Bool.false_eq_true, if_false]
      exact ⟨hb, hl, hn⟩

/-- C2: every roster reachable from the empty roster by toggles keeps the
budget within the 100-credit cap, the size within eleven, and the selected
identifiers pairwise distinct. -/
theorem reachable_invariant (t : List Player) (h : Reachable t) :
    budgetUsed t ≤ budgetCap ∧ t.length ≤ maxPlayers ∧
      (t.map Player.id).Nodup := by
  induction h with
  | nil => refine ⟨?_, ?_, ?_⟩ <;> simp [budgetUsed_nil, maxPlayers]
  | step t p _ ih =>
    obtain ⟨hb, hl, hn⟩ := ih
    exact toggle_preserves_invariant t p hb hl hn

/-- Concrete check of C2 at the one-click roster holding the demo batsman. -/
theorem reachable_invariant_witness :
    budgetUsed (toggle [] pB) ≤ budgetCap ∧
      (toggle [] pB).length ≤ maxPlayers ∧
        ((toggle [] pB).map Player.id).Nodup :=
  reachable_invariant (toggle [] pB) (Reachable.step [] pB Reachable.nil)

/-- Filtering a member with a distinct identifier out of a roster removes
exactly that member, up to permutation. -/
theorem remove_perm (R : List Player) (p : Player) (hmem : p ∈ R)
    (hnd : (R.map Player.id).Nodup) :
    List.Perm R (p :: R.filter (fun x => x.id != p.id)) := by
  induction R with
  | nil => cases hmem
  | cons x rest ih =>
    rw [List.map_cons, List.nodup_cons] at hnd
    obtain ⟨hx, hndr⟩ := hnd
    rcases List.mem_cons.mp hmem with heq | hmr
    · subst heq
      have hfil : rest.filter (fun q => q.id != p.id) = rest := by
        apply List.filter_eq_self.mpr
        intro a ha
        apply bne_iff_ne.mpr
        intro haid
        exact hx (haid ▸ List.mem_map_of_mem Player.id ha)
      simp only [List.filter_cons, bne_self_eq_false, Bool.false_eq_true,
        if_false, hfil]
      exact List.Perm.refl _
    · have hxid : x.id ≠ p.id := by
        intro hid
        exact hx (hid ▸ List.mem_map_of_mem Player.id hmr)
      have hcons : (x :: rest).filter (fun q => q.id != p.id) =
          x :: rest.filter (fun q => q.id != p.id) := by
        rw [List.filter_cons, if_pos (bne_iff_ne.mpr hxid)]
      rw [hcons]
      exact ((ih hmr hndr).cons x).trans (List.Perm.swap p x _)

/-- The toggle add branch: with the candidate absent and admissible, the
toggle appends the candidate at the end. -/
theorem toggle_add_eq (t : List Player) (p : Player)
    (hn : t.find? (fun x => x.id == p.id) = none)
    (hca : canAdd t p = true) : toggle t p = t ++ [p] := by
  simp only [toggle, hn, Option.isSome_none, Bool.false_eq_true, if_false,
    hca, if_true]

/-- C3 amended: toggling a member p out of a roster with distinct
identifiers removes exactly p, decreases the cost by exactly the positive
cost of p, and an immediate second toggle re-admits p at the end of the
roster, restoring the original roster up to permutation (and exactly only
when p was last). -/
theorem toggle_removal_spec (R : List Player) (p : Player)
    (hmem : p ∈ R) (hnd : (R.map Player.id).Nodup)
    (hl : R.length ≤ maxPlayers) (hb : budgetUsed R ≤ budgetCap) :
    toggle R p = R.filter (fun x => x.id != p.id) ∧
      List.Perm R (p :: toggle R p) ∧
      budgetUsed (toggle R p) + creditCost p.role = budgetUsed R ∧
      0 < creditCost p.role ∧
      toggle (toggle R p) p = toggle R p ++ [p] ∧
      List.Perm (toggle (toggle R p) p) R := by
  have hne : R.find? (fun x => x.id == p.id) ≠ none := by
    intro h
    have := List.find?_eq_none.mp h p hmem
    simp at this
  have hsome : (R.find? (fun x => x.id == p.id)).isSome = true :=
    Option.ne_none_iff_isSome.mp hne
  have h1 : toggle R p = R.filter (fun x => x.id != p.id) := by
    simp only [toggle, hsome, if_true]
  have hperm : List.Perm R (p :: toggle R p) := h1 ▸ remove_perm R p hmem hnd
  have hbudeq : budgetUsed (toggle R p) + creditCost p.role = budgetUsed R := by
    have := budgetUsed_perm hperm
    rw [budgetUsed_cons] at this
    omega
  have hids : ∀ x ∈ toggle R p, x.id ≠ p.id := by
    intro x hxm
    rw [h1] at hxm
    exact bne_iff_ne.mp (List.mem_filter.mp hxm).2
  have hfnone : (toggle R p).find? (fun x => x.id == p.id) = none := by
    apply List.find?_eq_none.mpr
    intro x hxm
    simpa using hids x hxm
  have hlen : (toggle R p).length + 1 = R.length := by
    have := hperm.length_eq
    rw [List.length_cons] at this
    omega
  have hca : canAdd (toggle R p) p = true := by
    apply (canAdd_iff_aux _ p).mpr
    refine ⟨by omega, hids, by omega⟩
  have h4 : toggle (toggle R p) p = toggle R p ++ [p] :=
    toggle_add_eq (toggle R p) p hfnone hca
  have h5 : List.Perm (toggle (toggle R p) p) R := by
    rw [h4]
    exact (List.perm_append_singleton p _).trans hperm.symm
  exact ⟨h1, hperm, hbudeq, creditCost_pos p.role, h4, h5⟩

/-- C3 counterexample: toggling the batsman out of the two-player roster
and toggling it back re-appends it at the end, so the double toggle yields
the reversed roster, not the original one. -/
theorem toggle_twice_reorders :
    pB ∈ [pB, pW] ∧
      toggle (toggle [pB, pW] pB) pB = [pW, pB] ∧
      [pW, pB] ≠ [pB, pW] := by decide

/-- Concrete check of the amended C3 on the two-player demo roster. -/
theorem toggle_removal_spec_witness :
    (pB ∈ [pB, pW] ∧ ([pB, pW].map Player.id).Nodup ∧
      [pB, pW].length ≤ maxPlayers ∧ budgetUsed [pB, pW] ≤ budgetCap) ∧
    (toggle [pB, pW] pB = [pB, pW].filter (fun x => x.id != pB.id) ∧
      List.Perm [pB, pW] (pB :: toggle [pB, pW] pB) ∧
      budgetUsed (toggle [pB, pW] pB) + creditCost pB.role =
        budgetUsed [pB, pW] ∧
      0 < creditCost pB.role ∧
      toggle (toggle [pB, pW] pB) pB = toggle [pB, pW] pB ++ [pB] ∧
      List.Perm (toggle (toggle [pB, pW] pB) pB) [pB, pW]) :=
  ⟨⟨by decide, by decide, by decide, by decide⟩,
    toggle_removal_spec [pB, pW] pB (by decide) (by decide)
      (by decide) (by decide)⟩

/-- C4 counterexample: on a role outside the closed set the cost
expression of the source does not fail; it yields the fallback cost 9,
while the lookup written from the words of the spec fails there. -/
theorem creditCost_no_failure_cex :
    creditCostSpec "Wicketkeeper" = none ∧
      creditCost "Wicketkeeper" = 9 := by decide

/-- C4 amended: the cost expression maps Batsman to 7 and Bowler to 8,
and every other role, All-rounder and unrecognized roles alike, to 9; it
is total and never fails. -/
theorem creditCost_values :
    creditCost "Batsman" = 7 ∧ creditCost "Bowler" = 8 ∧
      creditCost "All-rounder" = 9 ∧
      ∀ r : String, r ≠ "Batsman" → r ≠ "Bowler" → creditCost r = 9 := by
  refine ⟨by decide, by decide, by decide, ?_⟩
  intro r h1 h2
  simp [creditCost, h1, h2]

/-- Concrete check of the amended C4 at an unrecognized role. -/
theorem creditCost_values_witness :
    (("Wicketkeeper" : String) ≠ "Batsman" ∧
      ("Wicketkeeper" : String) ≠ "Bowler") ∧
      creditCost "Wicketkeeper" = 9 :=
  ⟨⟨by decide, by decide⟩,
    creditCost_values.2.2.2 "Wicketkeeper" (by decide) (by decide)⟩

/-- C5 counterexample: with a full roster the join against a known but
closed contest proceeds and performs all three writes, so the openness of
the contest is not among the checked preconditions. -/
theorem join_closed_contest_writes :
    cClosed.status = "closed" ∧ stFull.team.length = 11 ∧
      (joinContest okAll true true (some cClosed) stFull).1 =
        JoinOutcome.joined ∧
      (joinContest okAll true true (some cClosed) stFull).2.1.length = 3 := by
  decide

/-- C5 amended: the join checks, before any write, that refs, user and a
contest snapshot are present and that the roster size equals eleven; on a
violation it performs zero writes and leaves the state unchanged, with
the size violation surfacing an alert rather than a typed error, and the
open status of the contest is never checked. -/
theorem join_guard_no_writes (ok : Nat → Bool) (hasRefs hasUser : Bool)
    (contest : Option Contest) (st : FState)
    (h : contest = none ∨ hasRefs = false ∨ hasUser = false ∨
      st.team.length ≠ maxPlayers) :
    (joinContest ok hasRefs hasUser contest st).2.1 = [] ∧
      (joinContest ok hasRefs hasUser contest st).2.2 = st := by
  cases contest with
  | none => exact ⟨rfl, rfl⟩
  | some c =>
    rcases h with hc | hr | hu | hlen
    · cases hc
    · simp [joinContest, hr]
    · simp [joinContest, hu]
    · by_cases hru : (!hasRefs || !hasUser) = true
      · simp [joinContest, hru]
      · simp [joinContest, hru, hlen]

/-- Concrete check of the amended C5 at the size-ten roster scenario. -/
theorem join_guard_no_writes_witness :
    stTen.team.length ≠ maxPlayers ∧
      ((joinContest okAll true true (some cOpen) stTen).2.1 = [] ∧
        (joinContest okAll true true (some cOpen) stTen).2.2 = stTen) :=
  ⟨by decide,
    join_guard_no_writes okAll true true (some cOpen) stTen
      (Or.inr (Or.inr (Or.inr (by decide))))⟩

/-- Against an all-success oracle the sequential writes all persist. -/
theorem persistFrom_all (ok : Nat → Bool) (hok : ∀ i, ok i = true) :
    ∀ (i : Nat) (ws : List FWrite), persistFrom ok i ws = ws := by
  intro i ws
  induction ws generalizing i with
  | nil => rfl
  | cons w ws ih => simp [persistFrom, hok i, ih]

/-- Whatever the oracle, the persisted writes are an initial segment of
the intended write list. -/
theorem persistFrom_take (ok : Nat → Bool) :
    ∀ (ws : List FWrite) (i : Nat), ∃ n, persistFrom ok i ws = ws.take n := by
  intro ws
  induction ws with
  | nil => exact fun i => ⟨0, rfl⟩
  | cons w ws ih =>
    intro i
    by_cases hi : ok i = true
    · obtain ⟨n, hn⟩ := ih (i + 1)
      exact ⟨n + 1, by simp [persistFrom, hi, hn]⟩
    · exact ⟨0, by simp [persistFrom, hi]⟩

/-- C6 counterexample: when the second awaited write fails, exactly the
fantasy-profile marker persists, a nonempty proper subset of the three
intended records, so a partial subset of the writes is observable. -/
theorem join_prefix_write_observable :
    (joinContest okFirstOnly true true (some cOpen) stFull).2.1 =
      [FWrite.profileMarker] ∧
    (joinContest okFirstOnly true true (some cOpen) stFull).1 =
      JoinOutcome.failedAlert ∧
    (joinWrites stFull.team cOpen).length = 3 := by decide

/-- C6 amended: a join on which every write succeeds creates, in order,
exactly the profile marker, the team record with the ordered identifier
list, budget used and size and cap metadata, and the contest entry
linking contest, match and team; the writes are sequential rather than
transactional, so under an arbitrary oracle the persisted records form an
initial segment of that list. -/
theorem join_success_writes (ok : Nat → Bool) (c : Contest) (st : FState)
    (hok : ∀ i, ok i = true) (hlen : st.team.length = maxPlayers) :
    (joinContest ok true true (some c) st).2.1 =
      [ FWrite.profileMarker,
        FWrite.teamRecord "My XI" (st.team.map Player.id)
          (budgetUsed st.team) maxPlayers budgetCap,
        FWrite.contestEntry c.id c.matchId "team_current" ] ∧
      (joinContest ok true true (some c) st).1 = JoinOutcome.joined ∧
      ∀ ok2 : Nat → Bool, ∃ n,
        (joinContest ok2 true true (some c) st).2.1 =
          (joinWrites st.team c).take n := by
  have hws : persistFrom ok 0 (joinWrites st.team c) = joinWrites st.team c :=
    persistFrom_all ok hok 0 _
  have hmain : joinContest ok true true (some c) st =
      (JoinOutcome.joined, joinWrites st.team c,
        { st with joined := true, joining := false }) := by
    simp [joinContest, hlen, hws]
  refine ⟨?_, ?_, ?_⟩
  · rw [hmain]; rfl
  · rw [hmain]
  · intro ok2
    obtain ⟨n, hn⟩ := persistFrom_take ok2 (joinWrites st.team c) 0
    have hw2 : (joinContest ok2 true true (some c) st).2.1 =
        persistFrom ok2 0 (joinWrites st.team c) := by
      simp only [joinContest, Bool.not_true, Bool.or_self, Bool.false_eq_true,
        if_false, hlen, bne_self_eq_false]
      split <;> rfl
    exact ⟨n, hw2.trans hn⟩

/-- Concrete check of the amended C6 under the all-success oracle. -/
theorem join_success_writes_witness :
    (joinContest okAll true true (some cOpen) stFull).2.1 =
      [ FWrite.profileMarker,
        FWrite.teamRecord "My XI" (stFull.team.map Player.id)
          (budgetUsed stFull.team) maxPlayers budgetCap,
        FWrite.contestEntry cOpen.id cOpen.matchId "team_current" ] ∧
      (joinContest okAll true true (some cOpen) stFull).1 =
        JoinOutcome.joined :=
  have h := join_success_writes okAll cOpen stFull (fun _ => rfl) (by decide)
  ⟨h.1, h.2.1⟩

/-- C7: every invocation of the join, whatever the oracle, guards and
outcome, leaves the in-progress roster of the component state unchanged. -/
theorem join_preserves_roster (ok : Nat → Bool) (hasRefs hasUser : Bool)
    (contest : Option Contest) (st : FState) :
    ((joinContest ok hasRefs hasUser contest st).2.2).team = st.team := by
  cases contest with
  | none => rfl
  | some c =>
    by_cases h1 : (!hasRefs || !hasUser) = true
    · simp [joinContest, h1]
    · by_cases h2 : (st.team.length != maxPlayers) = true
      · simp [joinContest, h1, h2]
      · by_cases h3 : ((persistFrom ok 0 (joinWrites st.team c)).length ==
            (joinWrites st.team c).length) = true
        · simp [joinContest, h1, h2, h3]
        · simp [joinContest, h1, h2, h3]

/-- Inserting an entry permutes the entry onto the list. -/
theorem insertScore_perm (e : ScoreEntry) (l : List ScoreEntry) :
    List.Perm (insertScore e l) (e :: l) := by
  induction l with
  | nil => exact List.Perm.refl _
  | cons f rest ih =>
    by_cases h : pts f ≤ pts e
    · simp only [insertScore, h, if_true]
      exact List.Perm.refl _
    · simp only [insertScore, h, if_false]
      exact (ih.cons f).trans (List.Perm.swap e f rest)

/-- The ranking permutes its input. -/
theorem sortScores_perm (l : List ScoreEntry) :
    List.Perm (sortScores l) l := by
  induction l with
  | nil => exact List.Perm.refl _
  | cons e rest ih =>
    exact (insertScore_perm e (sortScores rest)).trans (ih.cons e)

/-- Inserting into a list ranked by points descending keeps it ranked. -/
theorem insertScore_pairwise (e : ScoreEntry) (l : List ScoreEntry)
    (h : l.Pairwise (fun a b => pts b ≤ pts a)) :
    (insertScore e l).Pairwise (fun a b => pts b ≤ pts a) := by
  induction l with
  | nil => simp [insertScore]
  | cons f rest ih =>
    rw [List.pairwise_cons] at h
    obtain ⟨hf, hrest⟩ := h
    by_cases hle : pts f ≤ pts e
    · simp only [insertScore, hle, if_true]
      rw [List.pairwise_cons]
      refine ⟨?_, ?_⟩
      · intro b hb
        rcases List.mem_cons.mp hb with rfl | hbr
        · exact hle
        · exact le_trans (hf b hbr) hle
      · rw [List.pairwise_cons]
        exact ⟨hf, hrest⟩
    · simp only [insertScore, hle, if_false]
      rw [List.pairwise_cons]
      refine ⟨?_, ih hrest⟩
      intro b hb
      rcases List.mem_cons.mp ((insertScore_perm e rest).mem_iff.mp hb)
        with rfl | hbr
      · omega
      · exact hf b hbr

/-- The ranking is ordered by points descending. -/
theorem sortScores_pairwise (l : List ScoreEntry) :
    (sortScores l).Pairwise (fun a b => pts b ≤ pts a) := by
  induction l with
  | nil => simp [sortScores]
  | cons e rest ih => exact insertScore_pairwise e (sortScores rest) ih

/-- Inserting an entry does not disturb the entries of any points class:
the filter of the insertion result at a points value keeps the class with
the entry at the front exactly when the entry belongs to it. -/
theorem insertScore_filter (e : ScoreEntry) (l : List ScoreEntry) (k : Int) :
    (insertScore e l).filter (fun f => pts f == k) =
      if pts e == k then e :: l.filter (fun f => pts f == k)
      else l.filter (fun f => pts f == k) := by
  induction l with
  | nil =>
    by_cases hek : (pts e == k) = true <;>
      simp [insertScore, List.filter_cons, hek]
  | cons f rest ih =>
    by_cases hle : pts f ≤ pts e
    · simp only [insertScore, hle, if_true, List.filter_cons]
    · simp only [insertScore, hle, if_false, List.filter_cons]
      by_cases hfk : (pts f == k) = true
      · have hek : ¬(pts e == k) = true := by
          intro hek
          have h1 := beq_iff_eq.mp hek
          have h2 := beq_iff_eq.mp hfk
          omega
        simp [hfk, ih, hek]
      · simp [hfk, ih]

/-- Stability of the ranking: every points class appears in the output in
exactly its input order. -/
theorem sortScores_filter (l : List ScoreEntry) (k : Int) :
    (sortScores l).filter (fun f => pts f == k) =
      l.filter (fun f => pts f == k) := by
  induction l with
  | nil => rfl
  | cons e rest ih =>
    rw [sortScores, insertScore_filter, List.filter_cons, ih]

/-- Ranking a list already ordered by points descending returns it. -/
theorem sortScores_of_sorted (l : List ScoreEntry)
    (h : l.Pairwise (fun a b => pts b ≤ pts a)) : sortScores l = l := by
  induction l with
  | nil => rfl
  | cons e rest ih =>
    rw [List.pairwise_cons] at h
    obtain ⟨he, hrest⟩ := h
    rw [sortScores, ih hrest]
    cases rest with
    | nil => rfl
    | cons f rest2 =>
      have : pts f ≤ pts e := he f (List.mem_cons_self f rest2)
      simp only [insertScore, this, if_true]

/-- C8: the rendered leaderboard is the truncation of the full ranking,
which orders the entries by points descending, treats an absent points
value as 0, and preserves the multiset of entries; the first twenty
entries of the truncated board are therefore those of the full order. -/
theorem leaderboard_ranking_correct (scores : List ScoreEntry) :
    leaderboardTop scores = (sortScores scores).take 20 ∧
      (sortScores scores).Pairwise (fun a b => pts b ≤ pts a) ∧
      List.Perm (sortScores scores) scores ∧
      ∀ u : String, pts (u, none) = 0 :=
  ⟨rfl, sortScores_pairwise scores, sortScores_perm scores, fun _ => rfl⟩

/-- C9: the ranking is deterministic and stable: re-ranking an already
produced order reproduces it unchanged, and every class of entries with
equal points keeps the original relative order of the input mapping. -/
theorem leaderboard_ranking_stable (scores : List ScoreEntry) :
    sortScores (sortScores scores) = sortScores scores ∧
      ∀ k : Int, (sortScores scores).filter (fun f => pts f == k) =
        scores.filter (fun f => pts f == k) :=
  ⟨sortScores_of_sorted _ (sortScores_pairwise scores),
    fun k => sortScores_filter scores k⟩

/-- Toggling keeps every member of the roster among the offered players,
provided the clicked player is offered and the roster already satisfied
this. -/
theorem toggle_mem_offered (players t : List Player) (p : Player)
    (hp : p ∈ offeredPlayers players)
    (ht : ∀ q ∈ t, q ∈ offeredPlayers players) :
    ∀ q ∈ toggle t p, q ∈ offeredPlayers players := by
  intro q hq
  unfold toggle at hq
  by_cases hsel : (t.find? (fun x => x.id == p.id)).isSome = true
  · rw [if_pos hsel] at hq
    exact ht q (List.mem_of_mem_filter hq)
  · rw [if_neg hsel] at hq
    by_cases hca : canAdd t p = true
    · rw [if_pos hca] at hq
      rcases List.mem_append.mp hq with hq1 | hq2
      · exact ht q hq1
      · rw [List.mem_singleton] at hq2
        exact hq2 ▸ hp
    · rw [if_neg hca] at hq
      exact ht q hq

/-- C10: the builder renders a button only for the first twenty players
of the list, so every roster reachable in the view consists solely of
players among those twenty; later players can never enter a roster. -/
theorem roster_only_offered_players (players t : List Player)
    (h : ReachableUI players t) :
    ∀ q ∈ t, q ∈ offeredPlayers players := by
  induction h with
  | nil => intro q hq; cases hq
  | step t p _ hp ih => exact toggle_mem_offered players t p hp ih

/-- Concrete check of C10 on a one-player list after one click. -/
theorem roster_only_offered_players_witness :
    pB ∈ offeredPlayers [pB] :=
  roster_only_offered_players [pB] (toggle [] pB)
    (ReachableUI.step [] pB (ReachableUI.nil) (by decide))
    pB (by decide)

end JPL
